import Mathlib

/-!
# Verification of the scoutfs inode metadata engine (`src/inode.c`)

A shallow embedding of the pieces of `src/inode.c` that the specification's
claims are about:

* the secondary index maintainer (`will_ins_index`, `will_del_index`,
  `update_index_items`),
* the deferred-delete / orphan path (`remove_index`, `remove_index_items`,
  `remove_orphan_item`, `delete_inode_items`),
* the prepare/lock/hold retry loop (`scoutfs_inode_index_try_lock_hold`,
  `scoutfs_inode_index_lock_hold`),
* the free-inode pool (`scoutfs_alloc_ino`, `scoutfs_inode_fill_pool`),
  modelled as a small-step transition system over the spinlock-atomic
  sections of the C code,
* inode refresh (`scoutfs_inode_refresh`) and the writeback tracker
  (`scoutfs_inode_queue_writeback`, `scoutfs_inode_walk_writeback`).

External collaborators (the item store, the DLM, the transaction system) are
modelled by their interface contracts: force-creates absorb `EEXIST`,
force-deletes absorb `ENOENT`, plain create/delete report them, exactly as
the C item API is used by `inode.c`.

Machine integers: inode numbers, majors, minors and sequence numbers are
`u64` in the C code; they are modelled as `Nat` (the code never overflows
them; `~0ULL` is the explicit constant `ALL_ONES` below).  Error returns are
modelled as `Int` (0 = success, negative errno).
-/

namespace Scoutfs

/-- errno values used by `inode.c` (returned negated, as in the kernel). -/
def ENOENT : Int := 2

def EIO : Int := 5

def ENOSPC : Int := 28

/-- `~0ULL`, the sentinel inode number meaning "no more inodes". -/
def ALL_ONES : Nat := 2 ^ 64 - 1

/-! ## Index kinds

`SCOUTFS_INODE_INDEX_SIZE_TYPE`, `..._META_SEQ_TYPE`, `..._DATA_SEQ_TYPE`. -/

inductive IndexKind : Type
  | size
  | metaSeq
  | dataSeq
deriving DecidableEq, Repr

/-- `S_ISREG(mode)`: the regular-file test on a `umode_t`
(`(mode & S_IFMT) == S_IFREG`, with `S_IFMT = 0xF000`, `S_IFREG = 0x8000`). -/
def S_ISREG (mode : Nat) : Bool := mode &&& 0xF000 == 0x8000

/-- `inode_has_index(mode, type)`: size and meta_seq indices apply to every
inode, the data_seq index only to regular files. -/
def inode_has_index (mode : Nat) : IndexKind → Bool
  | .size => true
  | .metaSeq => true
  | .dataSeq => S_ISREG mode

/-- The part of `struct scoutfs_inode_info` that the index maintainer reads:
`have_item` and the cached `item_majors[]` / `item_minors[]` of the persistent
index items (set by `set_item_info`). -/
structure ItemInfo : Type where
  have_item : Bool
  item_majors : IndexKind → Nat
  item_minors : IndexKind → Nat

/-- A `struct scoutfs_inode_index_key`: `(zone, type, major, minor, ino)`;
the zone is constant (`SCOUTFS_INODE_INDEX_ZONE`) so it is left implicit. -/
structure IndexKey : Type where
  type : IndexKind
  major : Nat
  minor : Nat
  ino : Nat
deriving DecidableEq, Repr

/-- `will_del_index(si, type, major, minor)` from `inode.c`: an old index
item exists and differs from the new value.  `si = none` models a NULL
`si` pointer (newly created inode path). -/
def will_del_index (si : Option ItemInfo) (type : IndexKind) (major minor : Nat) : Bool :=
  match si with
  | none => false
  | some si =>
      si.have_item && (si.item_majors type != major || si.item_minors type != minor)

/-- `will_ins_index(si, type, major, minor)` from `inode.c`: there is no old
index item, or it differs from the new value. -/
def will_ins_index (si : Option ItemInfo) (type : IndexKind) (major minor : Nat) : Bool :=
  match si with
  | none => true
  | some si =>
      !si.have_item || (si.item_majors type != major || si.item_minors type != minor)

/-- The item-store calls `update_index_items` makes, in order, for the trace
of performed store operations. -/
inductive StoreOp : Type
  | createForce (k : IndexKey)
  | deleteForce (k : IndexKey)
  | delete (k : IndexKey)
deriving DecidableEq, Repr

/-- The item-store interface consumed by the index maintainer
(`scoutfs_item_create_force`, `scoutfs_item_delete_force`,
`scoutfs_item_delete`), over an abstract store state `σ`.  Each call returns
an errno-style `Int` and the new store state. -/
structure ItemOps (σ : Type) : Type where
  create_force : IndexKey → σ → Int × σ
  delete_force : IndexKey → σ → Int × σ
  delete : IndexKey → σ → Int × σ

/-- Result of `update_index_items`: the returned errno, the store state, the
trace of store operations issued, and whether `BUG_ON` fired (the undo of the
just-created entry itself failed). -/
structure UpdateResult (σ : Type) : Type where
  ret : Int
  store : σ
  trace : List StoreOp
  bug : Bool
deriving Repr, DecidableEq

/-- `update_index_items(sb, si, ino, type, major, minor, lock_list)` from
`inode.c`, translated statement by statement:

* if `!will_ins_index` return 0;
* force-create the new index item; if that failed, or no old item needs
  deleting, return the create result;
* force-delete the old index item `(type, item_majors[type],
  item_minors[type], ino)`; on failure, delete the just-created item again
  (`BUG_ON` if that undo fails) and return the deletion error. -/
def update_index_items {σ : Type} (ops : ItemOps σ) (si : Option ItemInfo)
    (ino : Nat) (type : IndexKind) (major minor : Nat) (s : σ) : UpdateResult σ :=
  if !will_ins_index si type major minor then
    ⟨0, s, [], false⟩
  else
    let ins : IndexKey := ⟨type, major, minor, ino⟩
    let res := ops.create_force ins s
    if res.1 != 0 || !will_del_index si type major minor then
      ⟨res.1, res.2, [.createForce ins], false⟩
    else
      match si with
      | none => ⟨res.1, res.2, [.createForce ins], false⟩
      | some si =>
          let del : IndexKey := ⟨type, si.item_majors type, si.item_minors type, ino⟩
          let dres := ops.delete_force del res.2
          if dres.1 != 0 then
            let ures := ops.delete ins dres.2
            ⟨dres.1, ures.2, [.createForce ins, .deleteForce del, .delete ins],
              ures.1 != 0⟩
          else
            ⟨dres.1, dres.2, [.createForce ins, .deleteForce del], false⟩

/-! ## A concrete item store: a set of index keys

`scoutfs_item_create_force` absorbs "already exists" and
`scoutfs_item_delete_force` absorbs "already gone" (the spec's benign
errors), while plain `scoutfs_item_delete` reports `-ENOENT` for a missing
item. -/

/-- Insert a key into the set if not already present. -/
def insertKey (k : IndexKey) (s : List IndexKey) : List IndexKey :=
  if k ∈ s then s else k :: s

/-- Remove a key from the set. -/
def eraseKey (k : IndexKey) (s : List IndexKey) : List IndexKey :=
  s.filter (fun x => x ≠ k)

/-- The honest set-semantics store: force variants always succeed, plain
delete reports `-ENOENT` when the key is absent. -/
def setOps : ItemOps (List IndexKey) where
  create_force := fun k s => (0, insertKey k s)
  delete_force := fun k s => (0, eraseKey k s)
  delete := fun k s => if k ∈ s then (0, eraseKey k s) else (-ENOENT, s)

theorem mem_insertKey (k : IndexKey) (s : List IndexKey) : k ∈ insertKey k s := by
  unfold insertKey
  by_cases h : k ∈ s
  · simp [h]
  · simp [h]

theorem insertKey_of_mem {k : IndexKey} {s : List IndexKey} (h : k ∈ s) :
    insertKey k s = s := by
  simp [insertKey, h]

theorem mem_eraseKey_of_ne {k j : IndexKey} {s : List IndexKey} (h : k ∈ s)
    (hne : k ≠ j) : k ∈ eraseKey j s := by
  simp [eraseKey, List.mem_filter, h, hne]

theorem not_mem_eraseKey (k : IndexKey) (s : List IndexKey) : k ∉ eraseKey k s := by
  simp [eraseKey, List.mem_filter]

theorem eraseKey_eraseKey (k : IndexKey) (s : List IndexKey) :
    eraseKey k (eraseKey k s) = eraseKey k s := by
  simp [eraseKey, List.filter_filter]

theorem will_ins_of_will_del {si : Option ItemInfo} {type : IndexKind}
    {major minor : Nat} (h : will_del_index si type major minor = true) :
    will_ins_index si type major minor = true := by
  cases si with
  | none => simp [will_del_index] at h
  | some si =>
      simp only [will_del_index, Bool.and_eq_true] at h
      simp only [will_ins_index, h.2, Bool.or_true]

/-- When an old entry is deleted, its key differs from the newly inserted
key: `will_del_index` requires the major or minor to have changed. -/
theorem del_key_ne_ins_key {si : ItemInfo} {type : IndexKind} {major minor ino : Nat}
    (h : will_del_index (some si) type major minor = true) :
    (⟨type, major, minor, ino⟩ : IndexKey) ≠
      ⟨type, si.item_majors type, si.item_minors type, ino⟩ := by
  simp only [will_del_index, Bool.and_eq_true, Bool.or_eq_true, bne_iff_ne,
    ne_eq] at h
  intro hk
  rcases h.2 with hmaj | hmin
  · exact hmaj (congrArg IndexKey.major hk).symm
  · exact hmin (congrArg IndexKey.minor hk).symm

/-- Computation of `update_index_items` over the set store in the
insert-and-delete case. -/
theorem update_index_items_setOps_del {si : ItemInfo} {type : IndexKind}
    {major minor : Nat} (ino : Nat) (s : List IndexKey)
    (hins : will_ins_index (some si) type major minor = true)
    (hdel : will_del_index (some si) type major minor = true) :
    update_index_items setOps (some si) ino type major minor s =
      ⟨0, eraseKey ⟨type, si.item_majors type, si.item_minors type, ino⟩
            (insertKey ⟨type, major, minor, ino⟩ s),
        [.createForce ⟨type, major, minor, ino⟩,
         .deleteForce ⟨type, si.item_majors type, si.item_minors type, ino⟩],
        false⟩ := by
  simp [update_index_items, hins, hdel, setOps]

/-- Computation of `update_index_items` over the set store in the
insert-only case. -/
theorem update_index_items_setOps_ins {si : Option ItemInfo} {type : IndexKind}
    {major minor : Nat} (ino : Nat) (s : List IndexKey)
    (hins : will_ins_index si type major minor = true)
    (hdel : will_del_index si type major minor = false) :
    update_index_items setOps si ino type major minor s =
      ⟨0, insertKey ⟨type, major, minor, ino⟩ s,
        [.createForce ⟨type, major, minor, ino⟩], false⟩ := by
  cases si with
  | none => simp [update_index_items, hins, hdel, setOps]
  | some si => simp [update_index_items, hins, hdel, setOps]

/-- C1: in `update_index_items`, if the force-create of the new index entry
succeeded and the force-delete of the old entry then fails, the function
deletes the just-created entry again (the undo), returns the original
deletion error, and treats a failure of the undo itself as fatal
(`BUG_ON`) rather than returning it. -/
theorem update_index_items_undo_on_delete_failure {σ : Type} (ops : ItemOps σ)
    (si : ItemInfo) (ino : Nat) (type : IndexKind) (major minor : Nat) (s : σ)
    (hdel : will_del_index (some si) type major minor = true)
    (hcre : (ops.create_force ⟨type, major, minor, ino⟩ s).1 = 0)
    (hfail : (ops.delete_force ⟨type, si.item_majors type, si.item_minors type, ino⟩
        (ops.create_force ⟨type, major, minor, ino⟩ s).2).1 ≠ 0) :
    update_index_items ops (some si) ino type major minor s =
      ⟨(ops.delete_force ⟨type, si.item_majors type, si.item_minors type, ino⟩
          (ops.create_force ⟨type, major, minor, ino⟩ s).2).1,
        (ops.delete ⟨type, major, minor, ino⟩
          (ops.delete_force ⟨type, si.item_majors type, si.item_minors type, ino⟩
            (ops.create_force ⟨type, major, minor, ino⟩ s).2).2).2,
        [.createForce ⟨type, major, minor, ino⟩,
         .deleteForce ⟨type, si.item_majors type, si.item_minors type, ino⟩,
         .delete ⟨type, major, minor, ino⟩],
        (ops.delete ⟨type, major, minor, ino⟩
          (ops.delete_force ⟨type, si.item_majors type, si.item_minors type, ino⟩
            (ops.create_force ⟨type, major, minor, ino⟩ s).2).2).1 != 0⟩ := by
  have hins := will_ins_of_will_del hdel
  simp [update_index_items, hins, hdel, hcre, hfail]

/-- A store in which deleting the old index entry always fails with `-EIO`,
to exercise the undo path of `update_index_items`. -/
def failDeleteOps : ItemOps (List IndexKey) where
  create_force := fun k s => (0, insertKey k s)
  delete_force := fun _ s => (- EIO, s)
  delete := fun k s => (0, eraseKey k s)

/-- A concrete cached-item state: old indexed value `(1, 0)` for every kind. -/
def siOne : ItemInfo where
  have_item := true
  item_majors := fun _ => 1
  item_minors := fun _ => 0

/-- Witness for C1: concrete run of the undo path. -/
theorem update_index_items_undo_on_delete_failure_witness :
    will_del_index (some siOne) .size 2 0 = true ∧
    (failDeleteOps.create_force ⟨.size, 2, 0, 7⟩ []).1 = 0 ∧
    (failDeleteOps.delete_force ⟨.size, 1, 0, 7⟩
        (failDeleteOps.create_force ⟨.size, 2, 0, 7⟩ []).2).1 ≠ 0 ∧
    update_index_items failDeleteOps (some siOne) 7 .size 2 0 [] =
      ⟨- EIO, [], [.createForce ⟨.size, 2, 0, 7⟩, .deleteForce ⟨.size, 1, 0, 7⟩,
        .delete ⟨.size, 2, 0, 7⟩], false⟩ := by
  refine ⟨by decide, by decide, by decide, ?_⟩
  have h := update_index_items_undo_on_delete_failure failDeleteOps siOne 7 .size 2 0 []
    (by decide) (by decide) (by decide)
  rw [h]
  decide

/-- C3: for every index kind, if the cached old indexed value equals the new
value then `update_index_items` issues no store operation and returns
success; and over the set-semantics store, applying the same
`update_index_items` twice leaves the same final index-entry set as applying
it once. -/
theorem update_index_items_noop_and_idempotent :
    (∀ (si : ItemInfo) (ino : Nat) (type : IndexKind) (major minor : Nat)
        (s : List IndexKey),
        si.have_item = true → si.item_majors type = major →
        si.item_minors type = minor →
        update_index_items setOps (some si) ino type major minor s =
          ⟨0, s, [], false⟩) ∧
    (∀ (si : Option ItemInfo) (ino : Nat) (type : IndexKind) (major minor : Nat)
        (s : List IndexKey),
        (update_index_items setOps si ino type major minor
            (update_index_items setOps si ino type major minor s).store).store =
          (update_index_items setOps si ino type major minor s).store) := by
  constructor
  · intro si ino type major minor s h1 h2 h3
    simp [update_index_items, will_ins_index, h1, h2, h3]
  · intro si ino type major minor s
    by_cases hins : will_ins_index si type major minor = true
    · by_cases hdel : will_del_index si type major minor = true
      · obtain ⟨si', rfl⟩ : ∃ si', si = some si' := by
          cases si with
          | none => simp [will_del_index] at hdel
          | some si' => exact ⟨si', rfl⟩
        have hne := @del_key_ne_ins_key si' type major minor ino hdel
        rw [update_index_items_setOps_del ino s hins hdel]
        rw [update_index_items_setOps_del ino _ hins hdel]
        have hmem : (⟨type, major, minor, ino⟩ : IndexKey) ∈
            eraseKey ⟨type, si'.item_majors type, si'.item_minors type, ino⟩
              (insertKey ⟨type, major, minor, ino⟩ s) :=
          mem_eraseKey_of_ne (mem_insertKey _ _) hne
        rw [insertKey_of_mem hmem, eraseKey_eraseKey]
      · rw [update_index_items_setOps_ins ino s hins (Bool.not_eq_true _ |>.mp hdel)]
        rw [update_index_items_setOps_ins ino _ hins (Bool.not_eq_true _ |>.mp hdel)]
        rw [insertKey_of_mem (mem_insertKey _ _)]
    · simp [update_index_items, Bool.not_eq_true _ |>.mp hins]

/-- Witness for C3: equal old and new values are a no-op, at a concrete
input. -/
theorem update_index_items_noop_and_idempotent_witness :
    siOne.have_item = true ∧ siOne.item_majors .size = 1 ∧
    siOne.item_minors .size = 0 ∧
    update_index_items setOps (some siOne) 7 .size 1 0 [⟨.size, 1, 0, 7⟩] =
      ⟨0, [⟨.size, 1, 0, 7⟩], [], false⟩ :=
  ⟨rfl, rfl, rfl,
    update_index_items_noop_and_idempotent.1 siOne 7 .size 1 0 [⟨.size, 1, 0, 7⟩]
      rfl rfl rfl⟩

/-! ## The deferred-delete (orphan reclamation) path

`delete_inode_items` and its helpers operate on items in three zones: the
fs-zone inode items, the inode-index-zone items, and the node-zone orphan
items.  The store is modelled as one state with the three collections. -/

/-- The persistent `struct scoutfs_inode` fields read by the deletion and
refresh paths (timestamps, uid/gid and rdev are carried the same way as the
listed fields and are omitted). -/
structure SInode : Type where
  nlink : Nat
  mode : Nat
  size : Nat
  meta_seq : Nat
  data_seq : Nat
  data_version : Nat := 0
  next_readdir_pos : Nat := 0
  flags : Nat := 0
deriving DecidableEq, Repr

/-- The item-store contents visible to `delete_inode_items`: inode items
keyed by inode number, index items and this node's orphan items. -/
structure FsState : Type where
  items : List (Nat × SInode)
  index : List IndexKey
  orphans : List Nat
deriving DecidableEq, Repr

/-- `scoutfs_item_lookup_exact` on an inode key. -/
def lookupInode (s : FsState) (ino : Nat) : Option SInode :=
  (s.items.find? (fun p => p.1 == ino)).map (fun p => p.2)

/-- One performed store deletion, for the operation trace of
`delete_inode_items`. -/
inductive DelAction : Type
  | delIndex (k : IndexKey)
  | delInode (ino : Nat)
  | delOrphan (ino : Nat)
deriving DecidableEq, Repr

/-- Replay one traced deletion against a store state. -/
def applyAct (s : FsState) : DelAction → FsState
  | .delIndex k => { s with index := eraseKey k s.index }
  | .delInode ino => { s with items := s.items.filter (fun p => p.1 ≠ ino) }
  | .delOrphan ino => { s with orphans := s.orphans.filter (fun x => x ≠ ino) }

/-- Replay a list of traced deletions. -/
def applyActs (l : List DelAction) (s : FsState) : FsState := l.foldl applyAct s

/-- `remove_index(sb, ino, type, major, minor, ind_locks)`:
`scoutfs_item_delete_force` on the index key, with `-ENOENT` mapped to 0
("this is called on final inode cleanup so enoent is fine"). -/
def remove_index (s : FsState) (ino : Nat) (type : IndexKind)
    (major minor : Nat) : Int × FsState × List DelAction :=
  let k : IndexKey := ⟨type, major, minor, ino⟩
  let ret : Int := 0
  (ret, { s with index := eraseKey k s.index }, [.delIndex k])

/-- `remove_index_items(sb, ino, sinode, ind_locks)`: remove the size and
meta_seq entries, then the data_seq entry for regular files, stopping at the
first failure. -/
def remove_index_items (s : FsState) (ino : Nat) (sinode : SInode) :
    Int × FsState × List DelAction :=
  let r1 := remove_index s ino .size sinode.size 0
  if r1.1 != 0 then r1
  else
    let r2 := remove_index r1.2.1 ino .metaSeq sinode.meta_seq 0
    if r2.1 != 0 then (r2.1, r2.2.1, r1.2.2 ++ r2.2.2)
    else if S_ISREG sinode.mode then
      let r3 := remove_index r2.2.1 ino .dataSeq sinode.data_seq 0
      (r3.1, r3.2.1, r1.2.2 ++ r2.2.2 ++ r3.2.2)
    else (r2.1, r2.2.1, r1.2.2 ++ r2.2.2)

/-- `scoutfs_item_delete` on the inode key: reports `-ENOENT` when the item
is absent. -/
def item_delete_inode (s : FsState) (ino : Nat) : Int × FsState :=
  if (lookupInode s ino).isSome then
    (0, { s with items := s.items.filter (fun p => p.1 ≠ ino) })
  else (-ENOENT, s)

/-- `remove_orphan_item(sb, ino)`: `scoutfs_item_delete` on the orphan key,
with `-ENOENT` mapped to 0. -/
def remove_orphan_item (s : FsState) (ino : Nat) : Int × FsState :=
  let ret : Int := if ino ∈ s.orphans then 0 else -ENOENT
  (if ret = -ENOENT then 0 else ret,
    { s with orphans := s.orphans.filter (fun x => x ≠ ino) })

/-- `delete_inode_items(sb, ino)` from `inode.c`:

* look the inode item up; `-ENOENT` is mapped to success;
* a nonzero `nlink` is corruption: warn and return `-EIO` without touching
  anything;
* acquire the index locks and transaction (the lock/transaction/seq steps
  always succeed in this single-actor model), then remove the index items
  first, then the inode item, then the orphan item.

The third component is the trace of performed deletions, in order. -/
def delete_inode_items (s : FsState) (ino : Nat) : Int × FsState × List DelAction :=
  match lookupInode s ino with
  | none => (0, s, [])
  | some sinode =>
      if sinode.nlink != 0 then (- EIO, s, [])
      else
        let r1 := remove_index_items s ino sinode
        if r1.1 != 0 then r1
        else
          let r2 := item_delete_inode r1.2.1 ino
          if r2.1 != 0 then (r2.1, r2.2, r1.2.2)
          else
            let r3 := remove_orphan_item r2.2 ino
            (r3.1, r3.2, r1.2.2 ++ [.delInode ino, .delOrphan ino])

/-- The index keys `delete_inode_items` removes for an inode: size and
meta_seq always, data_seq for regular files. -/
def indexKeys (ino : Nat) (sinode : SInode) : List IndexKey :=
  [⟨.size, sinode.size, 0, ino⟩, ⟨.metaSeq, sinode.meta_seq, 0, ino⟩] ++
    (if S_ISREG sinode.mode then [⟨.dataSeq, sinode.data_seq, 0, ino⟩] else [])

/-- Erase each key of `ks` from the index-entry set, in order. -/
def eraseKeys (ks : List IndexKey) (idx : List IndexKey) : List IndexKey :=
  ks.foldl (fun l k => eraseKey k l) idx

theorem remove_index_items_spec (s : FsState) (ino : Nat) (sinode : SInode) :
    remove_index_items s ino sinode =
      (0, { s with index := eraseKeys (indexKeys ino sinode) s.index },
        (indexKeys ino sinode).map .delIndex) := by
  by_cases h : S_ISREG sinode.mode
  · simp [remove_index_items, remove_index, indexKeys, eraseKeys, h]
  · simp [remove_index_items, remove_index, indexKeys, eraseKeys, h]

theorem lookupInode_set_index (s : FsState) (idx : List IndexKey) (ino : Nat) :
    lookupInode { s with index := idx } ino = lookupInode s ino := rfl

theorem remove_orphan_item_ret (s : FsState) (ino : Nat) :
    (remove_orphan_item s ino).1 = 0 := by
  by_cases h : ino ∈ s.orphans <;> simp [remove_orphan_item, h, ENOENT]

/-- Whenever the inode item is present with a zero link count,
`delete_inode_items` succeeds and its deletion trace is exactly the
applicable index deletions, then the inode item, then the orphan item. -/
theorem delete_inode_items_run {s : FsState} {ino : Nat} {sinode : SInode}
    (h : lookupInode s ino = some sinode) (hn : sinode.nlink = 0) :
    (delete_inode_items s ino).1 = 0 ∧
      (delete_inode_items s ino).2.2 =
        (indexKeys ino sinode).map .delIndex ++ [.delInode ino, .delOrphan ino] := by
  have hlook2 : (lookupInode
      { s with index := eraseKeys (indexKeys ino sinode) s.index } ino).isSome := by
    rw [lookupInode_set_index, h]
    rfl
  simp only [delete_inode_items, h, hn, remove_index_items_spec]
  simp [item_delete_inode, hlook2, remove_orphan_item_ret]

theorem delete_inode_items_of_lookup_none {s : FsState} {ino : Nat}
    (h : lookupInode s ino = none) : delete_inode_items s ino = (0, s, []) := by
  simp [delete_inode_items, h]

/-- Replaying index-entry deletions does not change the inode items. -/
theorem lookupInode_applyActs_delIndex (ks : List IndexKey) (s : FsState) (ino : Nat) :
    lookupInode (applyActs (ks.map .delIndex) s) ino = lookupInode s ino := by
  induction ks generalizing s with
  | nil => rfl
  | cons k ks ih => exact ih _

/-- Replaying the inode-item deletion makes the lookup fail. -/
theorem lookupInode_applyAct_delInode (s : FsState) (ino : Nat) :
    lookupInode (applyAct s (.delInode ino)) ino = none := by
  have hfind : (s.items.filter (fun p => decide (p.1 ≠ ino))).find?
      (fun p => p.1 == ino) = none := by
    rw [List.find?_eq_none]
    intro p hp
    rw [List.mem_filter] at hp
    simpa using hp.2
  simp [applyAct, lookupInode, hfind]

/-- Replaying an orphan-item deletion does not change the inode items. -/
theorem lookupInode_applyAct_delOrphan (s : FsState) (j ino : Nat) :
    lookupInode (applyAct s (.delOrphan j)) ino = lookupInode s ino := rfl

theorem applyActs_append (l1 l2 : List DelAction) (s : FsState) :
    applyActs (l1 ++ l2) s = applyActs l2 (applyActs l1 s) :=
  List.foldl_append _ _ _ _

/-- C2: in `delete_inode_items`, the orphan item is deleted strictly after
every applicable index entry and after the inode item itself, and re-running
`delete_inode_items` on the state left by replaying any prefix of the
performed deletions (a partial completion) succeeds again, because the
index-entry and orphan deletions absorb `-ENOENT` and a missing inode item
is mapped to success. -/
theorem delete_inode_items_orphan_last_idempotent (s : FsState) (ino : Nat)
    (sinode : SInode) (h : lookupInode s ino = some sinode)
    (hn : sinode.nlink = 0) :
    (delete_inode_items s ino).1 = 0 ∧
    (delete_inode_items s ino).2.2 =
      (indexKeys ino sinode).map .delIndex ++ [.delInode ino, .delOrphan ino] ∧
    (∀ n : Nat,
      (delete_inode_items
        (applyActs ((delete_inode_items s ino).2.2.take n) s) ino).1 = 0) := by
  obtain ⟨hret, htr⟩ := delete_inode_items_run h hn
  refine ⟨hret, htr, ?_⟩
  intro n
  rw [htr, List.take_append_eq_append_take]
  by_cases hle : n ≤ ((indexKeys ino sinode).map DelAction.delIndex).length
  · have h0 : n - ((indexKeys ino sinode).map DelAction.delIndex).length = 0 :=
      Nat.sub_eq_zero_of_le hle
    rw [h0]
    simp only [List.take_zero, List.append_nil, ← List.map_take]
    have hlook : lookupInode
        (applyActs (((indexKeys ino sinode).take n).map .delIndex) s) ino =
          some sinode := by
      rw [lookupInode_applyActs_delIndex, h]
    exact (delete_inode_items_run hlook hn).1
  · have hlen : ((indexKeys ino sinode).map DelAction.delIndex).length ≤ n :=
      Nat.le_of_not_le hle
    rw [List.take_of_length_le hlen, applyActs_append]
    have hnone : ∀ t : FsState, lookupInode (applyActs
        ([DelAction.delInode ino, DelAction.delOrphan ino].take
          (n - ((indexKeys ino sinode).map DelAction.delIndex).length)) t) ino =
          none ∨ (n - ((indexKeys ino sinode).map DelAction.delIndex).length) = 0 := by
      intro t
      rcases hm : n - ((indexKeys ino sinode).map DelAction.delIndex).length with _ | m
      · exact Or.inr rfl
      · rcases m with _ | m
        · left
          simp only [List.take_succ_cons, List.take_zero]
          exact lookupInode_applyAct_delInode t ino
        · left
          have : [DelAction.delInode ino, DelAction.delOrphan ino].take (m + 1 + 1) =
              [DelAction.delInode ino, DelAction.delOrphan ino] := by
            simp
          rw [this]
          show lookupInode (applyAct (applyAct t (.delInode ino)) (.delOrphan ino))
            ino = none
          rw [lookupInode_applyAct_delOrphan, lookupInode_applyAct_delInode]
    rcases hnone (applyActs ((indexKeys ino sinode).map DelAction.delIndex) s) with
      hno | hzero
    · rw [delete_inode_items_of_lookup_none hno]
    · rw [hzero]
      simp only [List.take_zero, applyActs, List.foldl_nil]
      have hlook : lookupInode
          (applyActs ((indexKeys ino sinode).map DelAction.delIndex) s) ino =
            some sinode := by
        rw [lookupInode_applyActs_delIndex, h]
      exact (delete_inode_items_run hlook hn).1

/-- A concrete regular-file inode record with zero link count. -/
def sinReg : SInode where
  nlink := 0
  mode := 0x8000
  size := 10
  meta_seq := 3
  data_seq := 4

/-- A concrete store holding inode 7, its three index entries and its orphan
item. -/
def fsW : FsState where
  items := [(7, sinReg)]
  index := [⟨.size, 10, 0, 7⟩, ⟨.metaSeq, 3, 0, 7⟩, ⟨.dataSeq, 4, 0, 7⟩]
  orphans := [7]

/-- Witness for C2: a concrete full deletion of inode 7. -/
theorem delete_inode_items_orphan_last_idempotent_witness :
    lookupInode fsW 7 = some sinReg ∧ sinReg.nlink = 0 ∧
    ((delete_inode_items fsW 7).1 = 0 ∧
      (delete_inode_items fsW 7).2.2 =
        (indexKeys 7 sinReg).map .delIndex ++ [.delInode 7, .delOrphan 7] ∧
      (∀ n : Nat,
        (delete_inode_items
          (applyActs ((delete_inode_items fsW 7).2.2.take n) fsW) 7).1 = 0)) :=
  ⟨rfl, rfl, delete_inode_items_orphan_last_idempotent fsW 7 sinReg rfl rfl⟩

/-- C7: a nonzero link count observed by `delete_inode_items` is corruption:
the function returns `-EIO`, the store is untouched and no deletion is
performed. -/
theorem delete_inode_items_nonzero_nlink (s : FsState) (ino : Nat)
    (sinode : SInode) (h : lookupInode s ino = some sinode)
    (hn : sinode.nlink ≠ 0) :
    delete_inode_items s ino = (- EIO, s, []) := by
  have hb : (sinode.nlink != 0) = true := by simpa using hn
  simp [delete_inode_items, h, hb]

/-- A concrete still-linked inode record. -/
def sinLinked : SInode where
  nlink := 2
  mode := 0x8000
  size := 10
  meta_seq := 3
  data_seq := 4

/-- Witness for C7: deleting a still-linked inode record fails with `-EIO`
and changes nothing. -/
theorem delete_inode_items_nonzero_nlink_witness :
    lookupInode ⟨[(7, sinLinked)], [], [7]⟩ 7 = some sinLinked ∧
    sinLinked.nlink ≠ 0 ∧
    delete_inode_items ⟨[(7, sinLinked)], [], [7]⟩ 7 =
      (- EIO, ⟨[(7, sinLinked)], [], [7]⟩, []) :=
  ⟨rfl, by decide,
    delete_inode_items_nonzero_nlink ⟨[(7, sinLinked)], [], [7]⟩ 7 sinLinked rfl
      (by decide)⟩

/-- Counterexample to C8 as stated: `delete_inode_items` on an identifier
whose inode item does not exist returns 0 (success), not `-ENOENT`
(NotFound); the lookup's `-ENOENT` is explicitly mapped to 0. -/
theorem delete_inode_items_missing_returns_ok :
    delete_inode_items ⟨[], [], []⟩ 7 = (0, ⟨[], [], []⟩, []) ∧
      (delete_inode_items ⟨[], [], []⟩ 7).1 ≠ -ENOENT := by
  refine ⟨rfl, ?_⟩
  decide

/-- C8 (amended): `delete_inode_items` applied to an identifier whose
primary record does not exist returns success (0), absorbing the store's
NotFound, and performs no deletion. -/
theorem delete_inode_items_missing_amended (s : FsState) (ino : Nat)
    (h : lookupInode s ino = none) : delete_inode_items s ino = (0, s, []) :=
  delete_inode_items_of_lookup_none h

/-- Witness for the amended C8. -/
theorem delete_inode_items_missing_amended_witness :
    lookupInode ⟨[], [], [5]⟩ 9 = none ∧
      delete_inode_items ⟨[], [], [5]⟩ 9 = (0, ⟨[], [], [5]⟩, []) :=
  ⟨rfl, delete_inode_items_missing_amended ⟨[], [], [5]⟩ 9 rfl⟩

/-! ## Inode refresh (`scoutfs_inode_refresh`)

The vfs inode state refreshed from the item store under a lock whose
`refresh_gen` says whether the cached fields could be stale. -/

/-- The in-memory inode state `scoutfs_inode_refresh` guards:
`last_refreshed` plus the fields `load_inode` sets. -/
structure VfsInode : Type where
  last_refreshed : Nat
  size : Nat
  nlink : Nat
  meta_seq : Nat
  data_seq : Nat
  data_version : Nat
  next_readdir_pos : Nat
  flags : Nat
  have_item : Bool
  item_majors : IndexKind → Nat
  item_minors : IndexKind → Nat

/-- `set_item_info(si, sinode)`: cache the values the persistent index items
hold for this inode. -/
def set_item_info (v : VfsInode) (sinode : SInode) : VfsInode :=
  { v with
    have_item := true
    item_majors := fun t => match t with
      | .size => sinode.size
      | .metaSeq => sinode.meta_seq
      | .dataSeq => sinode.data_seq
    item_minors := fun _ => 0 }

/-- `load_inode(inode, cinode)`: copy the item's fields into the in-memory
inode, then `set_item_info`. -/
def load_inode (v : VfsInode) (sinode : SInode) : VfsInode :=
  set_item_info
    { v with
      size := sinode.size
      nlink := sinode.nlink
      meta_seq := sinode.meta_seq
      data_seq := sinode.data_seq
      data_version := sinode.data_version
      next_readdir_pos := sinode.next_readdir_pos
      flags := sinode.flags }
    sinode

/-- `scoutfs_inode_refresh(inode, lock, flags)`: if `last_refreshed` already
equals the lock's `refresh_gen`, return 0 immediately; otherwise, under the
item mutex, re-check and look the inode item up (`store` is the item the
lookup would find), load it and record the new generation.  The returned
`Bool` reports whether the item store was read. -/
def scoutfs_inode_refresh (v : VfsInode) (store : Option SInode)
    (refresh_gen : Nat) : Int × VfsInode × Bool :=
  if v.last_refreshed == refresh_gen then (0, v, false)
  else if v.last_refreshed < refresh_gen then
    match store with
    | some sinode => (0, { load_inode v sinode with last_refreshed := refresh_gen },
        true)
    | none => (-ENOENT, v, true)
  else (0, v, false)

/-- C10: when the inode's `last_refreshed` equals the lock's refresh
generation, `scoutfs_inode_refresh` returns 0 without reading the store and
without modifying the inode; consequently, after any successful refresh,
repeating the refresh under the same generation (whatever the store then
holds) is a no-op. -/
theorem scoutfs_inode_refresh_noop :
    (∀ (v : VfsInode) (store : Option SInode) (gen : Nat),
        v.last_refreshed = gen →
        scoutfs_inode_refresh v store gen = (0, v, false)) ∧
    (∀ (v : VfsInode) (store store2 : Option SInode) (gen : Nat),
        (scoutfs_inode_refresh v store gen).1 = 0 →
        scoutfs_inode_refresh (scoutfs_inode_refresh v store gen).2.1 store2 gen =
          (0, (scoutfs_inode_refresh v store gen).2.1, false)) := by
  have heq : ∀ (v : VfsInode) (store : Option SInode) (gen : Nat),
      v.last_refreshed = gen → scoutfs_inode_refresh v store gen = (0, v, false) := by
    intro v store gen h
    simp [scoutfs_inode_refresh, h]
  refine ⟨heq, ?_⟩
  intro v store store2 gen hret
  by_cases h1 : v.last_refreshed = gen
  · rw [heq v store gen h1]
    exact heq v store2 gen h1
  · by_cases h2 : v.last_refreshed < gen
    · cases store with
      | none =>
          have hres : scoutfs_inode_refresh v none gen = (-ENOENT, v, true) := by
            simp [scoutfs_inode_refresh, h1, h2]
          rw [hres] at hret
          simp [ENOENT] at hret
      | some sinode =>
          have hres : scoutfs_inode_refresh v (some sinode) gen =
              (0, { load_inode v sinode with last_refreshed := gen }, true) := by
            simp [scoutfs_inode_refresh, h1, h2]
          rw [hres]
          exact heq _ store2 gen rfl
    · have hres : scoutfs_inode_refresh v store gen = (0, v, false) := by
        simp [scoutfs_inode_refresh, h1, h2]
      rw [hres]
      simp [scoutfs_inode_refresh, h1, h2]

/-- Witness for C10: an already-refreshed inode is untouched. -/
theorem scoutfs_inode_refresh_noop_witness :
    (⟨4, 0, 1, 2, 3, 0, 0, 0, true, fun _ => 0, fun _ => 0⟩ :
        VfsInode).last_refreshed = 4 ∧
    scoutfs_inode_refresh ⟨4, 0, 1, 2, 3, 0, 0, 0, true, fun _ => 0, fun _ => 0⟩
        (some sinReg) 4 =
      (0, ⟨4, 0, 1, 2, 3, 0, 0, 0, true, fun _ => 0, fun _ => 0⟩, false) :=
  ⟨rfl, scoutfs_inode_refresh_noop.1
    ⟨4, 0, 1, 2, 3, 0, 0, 0, true, fun _ => 0, fun _ => 0⟩ (some sinReg) 4 rfl⟩

/-! ## The writeback tracker

`inf->writeback_inodes` is an rbtree of inodes keyed by inode number;
it is modelled as a strictly-ascending list of inode numbers. -/

/-- `insert_writeback_inode`: ordered insert into the tree (the C code
`BUG()`s on an equal key; callers insert only absent keys). -/
def insert_writeback_inode (ino : Nat) : List Nat → List Nat
  | [] => [ino]
  | x :: xs => if ino < x then ino :: x :: xs else x :: insert_writeback_inode ino xs

/-- `scoutfs_inode_queue_writeback`: insert the inode unless it is already
tracked (`RB_EMPTY_NODE` check). -/
def scoutfs_inode_queue_writeback (ino : Nat) (s : List Nat) : List Nat :=
  if ino ∈ s then s else insert_writeback_inode ino s

/-- `scoutfs_inode_walk_writeback(sb, write)`: walk the tracked inodes in
ascending order; for each, run `filemap_fdatawrite` (`write = true`) or
`filemap_fdatawait` (`write = false`), whose result is `fdata ino`.  A
nonzero result aborts the walk.  In wait mode each successfully drained
inode is removed from the set.  Returns the result, the remaining set, and
the inodes visited in order. -/
def scoutfs_inode_walk_writeback (write : Bool) (fdata : Nat → Int) :
    List Nat → Int × List Nat × List Nat
  | [] => (0, [], [])
  | i :: rest =>
      let r := fdata i
      if r != 0 then (r, i :: rest, [i])
      else
        let res := scoutfs_inode_walk_writeback write fdata rest
        if write then (res.1, i :: res.2.1, i :: res.2.2)
        else (res.1, res.2.1, i :: res.2.2)

theorem mem_insert_writeback_inode {y i : Nat} {s : List Nat} :
    y ∈ insert_writeback_inode i s ↔ y = i ∨ y ∈ s := by
  induction s with
  | nil => simp [insert_writeback_inode]
  | cons x xs ih =>
      by_cases h : i < x
      · simp [insert_writeback_inode, h]
      · simp only [insert_writeback_inode, if_neg h, List.mem_cons, ih]
        tauto

theorem pairwise_insert_writeback_inode {i : Nat} {s : List Nat}
    (hm : i ∉ s) (hs : s.Pairwise (· < ·)) :
    (insert_writeback_inode i s).Pairwise (· < ·) := by
  induction s with
  | nil => simp [insert_writeback_inode]
  | cons x xs ih =>
      rw [List.pairwise_cons] at hs
      by_cases h : i < x
      · rw [insert_writeback_inode, if_pos h, List.pairwise_cons]
        refine ⟨?_, List.pairwise_cons.mpr hs⟩
        intro y hy
        rcases List.mem_cons.mp hy with rfl | hy
        · exact h
        · exact Nat.lt_trans h (hs.1 y hy)
      · have hxi : x < i := by
          rcases Nat.lt_trichotomy i x with hlt | rfl | hgt
          · exact absurd hlt h
          · exact absurd (List.mem_cons_self _ _) hm
          · exact hgt
        rw [insert_writeback_inode, if_neg h, List.pairwise_cons]
        constructor
        · intro y hy
          rcases mem_insert_writeback_inode.mp hy with rfl | hy
          · exact hxi
          · exact hs.1 y hy
        · exact ih (fun hmem => hm (List.mem_cons_of_mem _ hmem)) hs.2

/-- C9: `scoutfs_inode_queue_writeback` is an idempotent insert that keeps
the tracked set strictly ascending; with every per-inode operation
succeeding, a wait-mode walk visits the members in ascending order, removes
each of them and leaves the set empty, while a flush-mode walk visits them
in the same order and retains the whole set. -/
theorem writeback_tracker_spec :
    (∀ (i : Nat) (s : List Nat),
        scoutfs_inode_queue_writeback i (scoutfs_inode_queue_writeback i s) =
          scoutfs_inode_queue_writeback i s) ∧
    (∀ (i : Nat) (s : List Nat), s.Pairwise (· < ·) →
        (scoutfs_inode_queue_writeback i s).Pairwise (· < ·)) ∧
    (∀ (fdata : Nat → Int) (s : List Nat), (∀ i ∈ s, fdata i = 0) →
        scoutfs_inode_walk_writeback false fdata s = (0, [], s)) ∧
    (∀ (fdata : Nat → Int) (s : List Nat), (∀ i ∈ s, fdata i = 0) →
        scoutfs_inode_walk_writeback true fdata s = (0, s, s)) := by
  refine ⟨?_, ?_, ?_, ?_⟩
  · intro i s
    have hmem : i ∈ scoutfs_inode_queue_writeback i s := by
      rw [scoutfs_inode_queue_writeback]
      by_cases h : i ∈ s
      · simp [h]
      · rw [if_neg h]
        exact mem_insert_writeback_inode.mpr (Or.inl rfl)
    rw [scoutfs_inode_queue_writeback, if_pos hmem]
  · intro i s hs
    rw [scoutfs_inode_queue_writeback]
    by_cases h : i ∈ s
    · rwa [if_pos h]
    · rw [if_neg h]
      exact pairwise_insert_writeback_inode h hs
  · intro fdata s hz
    induction s with
    | nil => rfl
    | cons i rest ih =>
        have hi : fdata i = 0 := hz i (List.mem_cons_self _ _)
        have hrest := ih (fun j hj => hz j (List.mem_cons_of_mem _ hj))
        simp [scoutfs_inode_walk_writeback, hi, hrest]
  · intro fdata s hz
    induction s with
    | nil => rfl
    | cons i rest ih =>
        have hi : fdata i = 0 := hz i (List.mem_cons_self _ _)
        have hrest := ih (fun j hj => hz j (List.mem_cons_of_mem _ hj))
        simp [scoutfs_inode_walk_writeback, hi, hrest]

/-- Witness for C9: inserting `{3, 1, 2}` and draining in wait mode
processes `1, 2, 3` in order and leaves the set empty. -/
theorem writeback_tracker_spec_witness :
    scoutfs_inode_queue_writeback 2 (scoutfs_inode_queue_writeback 1
      (scoutfs_inode_queue_writeback 3 [])) = [1, 2, 3] ∧
    (∀ i ∈ [1, 2, 3], (fun _ => (0 : Int)) i = 0) ∧
    scoutfs_inode_walk_writeback false (fun _ => (0 : Int)) [1, 2, 3] =
      (0, [], [1, 2, 3]) :=
  ⟨by decide, by decide,
    writeback_tracker_spec.2.2.1 (fun _ => (0 : Int)) [1, 2, 3] (by decide)⟩

/-! ## The prepare → lock → hold retry loop

`scoutfs_inode_index_lock_hold` samples the transaction sequence
(`scoutfs_inode_index_start`), prepares the index lock list, then calls
`scoutfs_inode_index_try_lock_hold`, which sorts and acquires the locks,
holds the transaction, and re-reads the sequence; a changed sequence
releases everything and retries.  The sequence values an execution
observes are modelled by two streams: `sample i` is `sbi->trans_seq` when
attempt `i` samples it, `check i` is `sbi->trans_seq` when attempt `i`
re-reads it inside `try_lock_hold`. -/

/-- An `struct index_lock` descriptor (its lock pointer is the `Bool`:
acquired or not). -/
structure IndexLockDesc : Type where
  type : IndexKind
  major : Nat
  minor : Nat
  ino : Nat
  locked : Bool
deriving DecidableEq, Repr

/-- `scoutfs_inode_index_try_lock_hold(sb, list, seq, cnt)`: sort the list,
acquire every lock (acquisition itself always succeeds), hold the
transaction, and compare the sampled `seq` with the current `trans_seq`.  On
mismatch the transaction is released, the return is 1, and (as in
`scoutfs_inode_index_lock_hold`'s `out:` path) `scoutfs_inode_index_unlock`
unlocks and empties the whole list.  Returns
`(ret, lock list, transaction held)`. -/
def scoutfs_inode_index_try_lock_hold (list : List IndexLockDesc)
    (seq trans_seq : Nat) : Int × List IndexLockDesc × Bool :=
  let sorted := list.map (fun d => { d with locked := true })
  if seq ≠ trans_seq then (1, [], false)
  else (0, sorted, true)

/-- The retry loop of `scoutfs_inode_index_lock_hold`, unrolled over attempt
indices: attempt `i` prepares `prepared i`, samples `sample i` and checks
against `check i`; a positive return retries.  `fuel` bounds the number of
attempts taken; the result is the number of attempts used, or `none` if
`fuel` attempts did not suffice. -/
def index_lock_hold_loop (prepared : Nat → List IndexLockDesc)
    (sample check : Nat → Nat) : Nat → Nat → Option Nat
  | _, 0 => none
  | i, fuel + 1 =>
      if (scoutfs_inode_index_try_lock_hold (prepared i) (sample i) (check i)).1 > 0
      then index_lock_hold_loop prepared sample check (i + 1) fuel
      else some (i + 1)

theorem try_lock_hold_retry (list : List IndexLockDesc) (seq trans_seq : Nat)
    (h : seq ≠ trans_seq) :
    scoutfs_inode_index_try_lock_hold list seq trans_seq = (1, [], false) := by
  simp [scoutfs_inode_index_try_lock_hold, h]

/-- If by attempt `i + m`'s check the sequence is at most `m` ahead of
attempt `i`'s sample, the loop started at attempt `i` finishes within
`m + 1` attempts. -/
theorem index_lock_hold_loop_converges (prepared : Nat → List IndexLockDesc)
    (sample check : Nat → Nat)
    (hsc : ∀ i, sample i ≤ check i) (hcs : ∀ i, check i ≤ sample (i + 1)) :
    ∀ (m i : Nat), check (i + m) ≤ sample i + m →
      ∃ k, index_lock_hold_loop prepared sample check i (m + 1) = some k ∧
        k ≤ i + m + 1 := by
  intro m
  induction m with
  | zero =>
      intro i h
      have heq : sample i = check i :=
        Nat.le_antisymm (hsc i) (by simpa using h)
      refine ⟨i + 1, ?_, Nat.le_refl _⟩
      rw [index_lock_hold_loop]
      simp [scoutfs_inode_index_try_lock_hold, heq]
  | succ m ih =>
      intro i h
      by_cases heq : sample i = check i
      · refine ⟨i + 1, ?_, ?_⟩
        · rw [index_lock_hold_loop]
          simp [scoutfs_inode_index_try_lock_hold, heq]
        · omega
      · have hlt : sample i + 1 ≤ check i := Nat.lt_of_le_of_ne (hsc i) heq
        have hnext : check ((i + 1) + m) ≤ sample (i + 1) + m := by
          have h3 : i + 1 + m = i + (m + 1) := by omega
          rw [h3]
          have h2 : check i ≤ sample (i + 1) := hcs i
          omega
        obtain ⟨k, hk, hkle⟩ := ih (i + 1) hnext
        refine ⟨k, ?_, by omega⟩
        rw [index_lock_hold_loop,
          try_lock_hold_retry (prepared i) (sample i) (check i) heq]
        simpa using hk

/-- C4: a failed sequence check in `scoutfs_inode_index_try_lock_hold`
releases the transaction, unlocks and empties the whole index-lock list and
reports retry (ret 1, no lock held, no transaction held); and if the
transaction sequence is, by the check of the `N`-th retry, at most `N`
ahead of the first sample — it advanced (at most) exactly `N` times during
the `N` attempts — the prepare→lock→hold loop finishes within `N + 1`
attempts. -/
theorem index_lock_hold_retry_converges (prepared : Nat → List IndexLockDesc)
    (sample check : Nat → Nat) (N : Nat)
    (hsc : ∀ i, sample i ≤ check i) (hcs : ∀ i, check i ≤ sample (i + 1))
    (hN : check N ≤ sample 0 + N) :
    (∀ (list : List IndexLockDesc) (seq trans_seq : Nat), seq ≠ trans_seq →
      scoutfs_inode_index_try_lock_hold list seq trans_seq = (1, [], false)) ∧
    (∃ k, index_lock_hold_loop prepared sample check 0 (N + 1) = some k ∧
      k ≤ N + 1) := by
  refine ⟨fun list seq trans_seq h => try_lock_hold_retry list seq trans_seq h, ?_⟩
  have := index_lock_hold_loop_converges prepared sample check hsc hcs N 0
    (by simpa using hN)
  simpa using this

/-- Witness for C4: a run in which the sequence advances once during the
first attempt and then settles, finishing on the second attempt. -/
theorem index_lock_hold_retry_converges_witness :
    (∀ i : Nat, [0, 1, 1].getD i 1 ≤ [1, 1, 1].getD i 1) ∧
    (∀ i : Nat, [1, 1, 1].getD i 1 ≤ [0, 1, 1].getD (i + 1) 1) ∧
    [1, 1, 1].getD 1 1 ≤ [0, 1, 1].getD 0 1 + 1 ∧
    (∃ k, index_lock_hold_loop (fun _ => [])
      (fun i => [0, 1, 1].getD i 1) (fun i => [1, 1, 1].getD i 1) 0 2 = some k ∧
      k ≤ 2) := by
  have hsc : ∀ i : Nat, [0, 1, 1].getD i 1 ≤ [1, 1, 1].getD i 1 := by
    intro i
    match i with
    | 0 => decide
    | 1 => decide
    | 2 => decide
    | n + 3 => simp [List.getD]
  have hcs : ∀ i : Nat, [1, 1, 1].getD i 1 ≤ [0, 1, 1].getD (i + 1) 1 := by
    intro i
    match i with
    | 0 => decide
    | 1 => decide
    | n + 2 => simp [List.getD]
  exact ⟨hsc, hcs, by decide,
    (index_lock_hold_retry_converges (fun _ => [])
      (fun i => [0, 1, 1].getD i 1) (fun i => [1, 1, 1].getD i 1) 1
      hsc hcs (by decide)).2⟩

/-! ## The free-inode pool

`struct free_ino_pool` (`ino`, `nr`, `in_flight`, a waitqueue and a
spinlock) consumed by `scoutfs_alloc_ino` and refilled by
`scoutfs_inode_fill_pool`.  Concurrency is modelled as a small-step
transition system: every spinlock-protected section of `scoutfs_alloc_ino`
is one atomic step of one thread, the request transmission
(`scoutfs_client_alloc_inodes`, modelled in its successful case) is a step,
and the network reply (`scoutfs_inode_fill_pool`) is an environment step.
Threads are anonymous (they are all running the same code), so the thread
pool is a list of per-thread control states. -/

/-- The control state of one thread inside `scoutfs_alloc_ino`:

* `check`: about to run the spinlock-protected loop check (also the entry
  point);
* `sending`: saw `in_flight == false`, set it, dropped the lock, about to
  call `scoutfs_client_alloc_inodes`;
* `waiting`: inside `wait_event_interruptible(waitq, !pool_in_flight)`;
* `done ret ino`: returned `ret` with `*ino` set to `ino`. -/
inductive TState : Type
  | check
  | sending
  | waiting
  | done (ret : Int) (ino : Nat)
deriving DecidableEq, Repr

/-- A configuration: the `free_ino_pool` fields, the count of refill
requests actually transmitted, whether the reply has been delivered, and
the control state of each allocating thread. -/
structure PoolCfg : Type where
  ino : Nat
  nr : Nat
  in_flight : Bool
  sent : Nat
  filled : Bool
  threads : List TState
deriving DecidableEq, Repr

/-- One atomic step of the pool system, refilled with `(fillIno, fillNr)`:

* `to_waiting` / `to_sending`: the loop check of `scoutfs_alloc_ino` with
  the pool empty and not exhausted — the thread either observes
  `in_flight` and goes to wait, or becomes the single requester;
* `send_request`: the requester's successful
  `scoutfs_client_alloc_inodes` call;
* `wake`: `wait_event` returns once `in_flight` is clear and the thread
  loops back to the check;
* `alloc_ok`: the loop exits with `nr != 0`; `*ino = pool->ino++`,
  `pool->nr--`, return 0;
* `alloc_nospc`: the loop exits with `nr == 0` (so `ino == ~0ULL`);
  return `-ENOSPC` with `*ino = 0`;
* `fill_pool`: `scoutfs_inode_fill_pool(sb, fillIno, fillNr)` — the reply
  to a transmitted request stores the range and clears `in_flight`. -/
inductive alloc_ino_step (fillIno fillNr : Nat) : PoolCfg → PoolCfg → Prop
  | to_waiting (c : PoolCfg) (l1 l2 : List TState) :
      c.threads = l1 ++ .check :: l2 → c.nr = 0 → c.ino ≠ ALL_ONES →
      c.in_flight = true →
      alloc_ino_step fillIno fillNr c { c with threads := l1 ++ .waiting :: l2 }
  | to_sending (c : PoolCfg) (l1 l2 : List TState) :
      c.threads = l1 ++ .check :: l2 → c.nr = 0 → c.ino ≠ ALL_ONES →
      c.in_flight = false →
      alloc_ino_step fillIno fillNr c
        { c with in_flight := true, threads := l1 ++ .sending :: l2 }
  | send_request (c : PoolCfg) (l1 l2 : List TState) :
      c.threads = l1 ++ .sending :: l2 →
      alloc_ino_step fillIno fillNr c
        { c with sent := c.sent + 1, threads := l1 ++ .waiting :: l2 }
  | wake (c : PoolCfg) (l1 l2 : List TState) :
      c.threads = l1 ++ .waiting :: l2 → c.in_flight = false →
      alloc_ino_step fillIno fillNr c { c with threads := l1 ++ .check :: l2 }
  | alloc_ok (c : PoolCfg) (l1 l2 : List TState) :
      c.threads = l1 ++ .check :: l2 → c.nr ≠ 0 →
      alloc_ino_step fillIno fillNr c
        { c with
          ino := c.ino + 1
          nr := c.nr - 1
          threads := l1 ++ .done 0 c.ino :: l2 }
  | alloc_nospc (c : PoolCfg) (l1 l2 : List TState) :
      c.threads = l1 ++ .check :: l2 → c.nr = 0 → c.ino = ALL_ONES →
      alloc_ino_step fillIno fillNr c
        { c with threads := l1 ++ .done (-ENOSPC) 0 :: l2 }
  | fill_pool (c : PoolCfg) :
      1 ≤ c.sent → c.filled = false →
      alloc_ino_step fillIno fillNr c
        { c with ino := fillIno, nr := fillNr, in_flight := false, filled := true }

theorem append_cons_eq_singleton {α : Type} {l1 l2 : List α} {x a : α}
    (h : l1 ++ x :: l2 = [a]) : l1 = [] ∧ x = a ∧ l2 = [] := by
  cases l1 with
  | nil =>
      simp only [List.nil_append, List.cons.injEq] at h
      exact ⟨rfl, h.1, h.2⟩
  | cons y ys => simp at h

/-- C6: once the pool has been filled with the permanent-exhaustion
sentinel (`ino = ~0ULL`, `nr = 0`), the only step an allocating thread can
take is to return immediately with `-ENOSPC` and output inode 0: the loop
body is never entered (no blocking wait), no refill request is issued
(`sent` unchanged) and the pool fields are unchanged. -/
theorem alloc_ino_exhausted_enospc (fillIno fillNr : Nat) (p : PoolCfg)
    (hino : p.ino = ALL_ONES) (hnr : p.nr = 0) (hfilled : p.filled = true)
    (hthreads : p.threads = [.check]) :
    ∀ c', alloc_ino_step fillIno fillNr p c' ↔
      c' = { p with threads := [.done (-ENOSPC) 0] } := by
  intro c'
  constructor
  · intro hstep
    cases hstep with
    | to_waiting l1 l2 ht h0 hne hf => exact absurd hino hne
    | to_sending l1 l2 ht h0 hne hf => exact absurd hino hne
    | send_request l1 l2 ht =>
        rw [hthreads] at ht
        obtain ⟨-, hx, -⟩ := append_cons_eq_singleton ht.symm
        exact absurd hx (by decide)
    | wake l1 l2 ht hf =>
        rw [hthreads] at ht
        obtain ⟨-, hx, -⟩ := append_cons_eq_singleton ht.symm
        exact absurd hx (by decide)
    | alloc_ok l1 l2 ht hnz => exact absurd hnr hnz
    | alloc_nospc l1 l2 ht h0 hall =>
        rw [hthreads] at ht
        obtain ⟨h1, -, h2⟩ := append_cons_eq_singleton ht.symm
        subst h1
        subst h2
        rfl
    | fill_pool hsent hf => rw [hfilled] at hf; exact absurd hf (by decide)
  · intro hc
    rw [hc]
    have := @alloc_ino_step.alloc_nospc fillIno fillNr
      p [] [] (by simpa using hthreads) hnr hino
    simpa using this

/-- Witness for C6: the concrete exhausted pool takes exactly the
`-ENOSPC` step. -/
theorem alloc_ino_exhausted_enospc_witness :
    alloc_ino_step 0 0 ⟨ALL_ONES, 0, false, 1, true, [.check]⟩
      ⟨ALL_ONES, 0, false, 1, true, [.done (-ENOSPC) 0]⟩ :=
  (alloc_ino_exhausted_enospc 0 0 ⟨ALL_ONES, 0, false, 1, true, [.check]⟩
    rfl rfl rfl rfl _).mpr rfl

/-- Is the thread between setting `in_flight` and transmitting the
request? -/
def isSending : TState → Bool
  | .sending => true
  | _ => false

/-- Has the thread returned? -/
def isDone : TState → Bool
  | .done _ _ => true
  | _ => false

/-- Has the thread returned successfully (with an allocated inode)? -/
def isDoneOk : TState → Bool
  | .done r _ => r == 0
  | _ => false

/-- Threads that have set `in_flight` but not yet transmitted. -/
def sendingCount (c : PoolCfg) : Nat := c.threads.countP isSending

/-- Requests transmitted plus requests about to be transmitted: the number
of threads that took the requester role. -/
def sendersCount (c : PoolCfg) : Nat := c.sent + sendingCount c

/-- Threads that completed with an allocation. -/
def doneOkCount (c : PoolCfg) : Nat := c.threads.countP isDoneOk

/-- `K` allocators find the pool empty (`nr = 0`) and not exhausted
(`ino = ino0 ≠ ~0ULL`), with no request in flight. -/
def pool_init (K ino0 : Nat) : PoolCfg :=
  ⟨ino0, 0, false, 0, false, List.replicate K .check⟩

/-- Configurations reachable from `pool_init K ino0` under refill
`(fillIno, fillNr)`. -/
def pool_reachable (K ino0 fillIno fillNr : Nat) (c : PoolCfg) : Prop :=
  Relation.ReflTransGen (alloc_ino_step fillIno fillNr) (pool_init K ino0) c

/-- No thread (and no environment reply) can take a step. -/
def pool_terminal (fillIno fillNr : Nat) (c : PoolCfg) : Prop :=
  ∀ c', ¬ alloc_ino_step fillIno fillNr c c'

/-- The inductive invariant of the pool system started from
`pool_init K ino0`. -/
structure PoolInv (K ino0 fillIno fillNr : Nat) (c : PoolCfg) : Prop where
  len : c.threads.length = K
  senders_le : sendersCount c ≤ 1
  prefill_nr : c.filled = false → c.nr = 0
  prefill_ino : c.filled = false → c.ino = ino0
  prefill_flag : c.filled = false → (c.in_flight = true ↔ sendersCount c = 1)
  prefill_nodone : c.filled = false → ∀ t ∈ c.threads, isDone t = false
  prefill_waiting : c.filled = false → TState.waiting ∈ c.threads →
    sendersCount c = 1
  postfill_flag : c.filled = true → c.in_flight = false
  postfill_sent : c.filled = true → c.sent = 1
  postfill_nosending : c.filled = true → sendingCount c = 0
  postfill_nr : c.filled = true → c.nr + doneOkCount c = fillNr
  postfill_ino : c.filled = true → fillIno = ALL_ONES → c.ino = ALL_ONES

theorem forall_mem_replace {P : TState → Prop} {l1 l2 : List TState} {x y : TState}
    (hall : ∀ t ∈ l1 ++ x :: l2, P t) (hy : P y) : ∀ t ∈ l1 ++ y :: l2, P t := by
  intro t ht
  rcases List.mem_append.mp ht with h | h
  · exact hall t (List.mem_append.mpr (Or.inl h))
  · rcases List.mem_cons.mp h with rfl | h
    · exact hy
    · exact hall t (List.mem_append.mpr (Or.inr (List.mem_cons_of_mem _ h)))

theorem mem_replace {l1 l2 : List TState} {y t : TState} (x : TState)
    (h : t ∈ l1 ++ y :: l2) : t = y ∨ t ∈ l1 ++ x :: l2 := by
  rcases List.mem_append.mp h with h | h
  · exact Or.inr (List.mem_append.mpr (Or.inl h))
  · rcases List.mem_cons.mp h with rfl | h
    · exact Or.inl rfl
    · exact Or.inr (List.mem_append.mpr (Or.inr (List.mem_cons_of_mem _ h)))

theorem countP_replicate_eq_zero {p : TState → Bool} {x : TState}
    (hx : p x = false) (n : Nat) : (List.replicate n x).countP p = 0 := by
  rw [List.countP_eq_zero]
  intro a ha
  rw [List.eq_of_mem_replicate ha]
  simp [hx]

theorem pool_inv_init (K ino0 fillIno fillNr : Nat) :
    PoolInv K ino0 fillIno fillNr (pool_init K ino0) := by
  have hsc : sendingCount (pool_init K ino0) = 0 :=
    countP_replicate_eq_zero rfl K
  refine ⟨?_, ?_, ?_, ?_, ?_, ?_, ?_, ?_, ?_, ?_, ?_, ?_⟩
  · simp [pool_init]
  · rw [sendersCount, hsc]
    simp [pool_init]
  · intro _
    rfl
  · intro _
    rfl
  · intro _
    rw [sendersCount, hsc]
    constructor
    · intro h
      exact absurd h (by simp [pool_init])
    · intro h
      exact absurd h (by simp [pool_init])
  · intro _ t ht
    rw [List.eq_of_mem_replicate ht]
    rfl
  · intro _ hw
    exact absurd (List.eq_of_mem_replicate hw) (by decide)
  · intro h
    simp [pool_init] at h
  · intro h
    simp [pool_init] at h
  · intro h
    simp [pool_init] at h
  · intro h
    simp [pool_init] at h
  · intro h
    simp [pool_init] at h

theorem countP_append_cons (p : TState → Bool) (x : TState) (l1 l2 : List TState) :
    (l1 ++ x :: l2).countP p =
      l1.countP p + l2.countP p + (if p x then 1 else 0) := by
  by_cases h : p x <;> simp [List.countP_append, List.countP_cons, h] <;> omega

theorem length_append_cons (x : TState) (l1 l2 : List TState) :
    (l1 ++ x :: l2).length = l1.length + l2.length + 1 := by
  simp [List.length_append]
  omega

theorem bool_tf {b : Bool} (h1 : b = false) (h2 : b = true) : False := by
  rw [h1] at h2
  exact absurd h2 (by decide)

theorem isDoneOk_eq_false_of_not_done {t : TState} (h : isDone t = false) :
    isDoneOk t = false := by
  cases t with
  | done r i => simp [isDone] at h
  | check => rfl
  | sending => rfl
  | waiting => rfl

theorem sendersCount_def (c : PoolCfg) :
    sendersCount c = c.sent + sendingCount c := rfl

/-- After the refill, a thread at the loop check with an empty pool can
only be seeing the exhaustion sentinel: with a genuine range of at least
`K` inodes, the pool cannot be empty again while a thread has not yet
allocated. -/
theorem postfill_check_empty {K ino0 fillIno fillNr : Nat}
    (hfill : (fillIno ≠ ALL_ONES ∧ K ≤ fillNr) ∨
      (fillIno = ALL_ONES ∧ fillNr = 0))
    {c : PoolCfg} {l1 l2 : List TState}
    (hinv : PoolInv K ino0 fillIno fillNr c) (hcf : c.filled = true)
    (ht : c.threads = l1 ++ TState.check :: l2) (h0 : c.nr = 0) :
    c.ino = ALL_ONES := by
  rcases hfill with ⟨hIne, hKle⟩ | ⟨hIa, _⟩
  · exfalso
    have hnr := hinv.postfill_nr hcf
    rw [h0] at hnr
    have hdo : doneOkCount c = l1.countP isDoneOk + l2.countP isDoneOk := by
      rw [doneOkCount, ht, countP_append_cons]
      simp [isDoneOk]
    have hl := hinv.len
    rw [ht, length_append_cons] at hl
    have hc1 := List.countP_le_length (p := isDoneOk) (l := l1)
    have hc2 := List.countP_le_length (p := isDoneOk) (l := l2)
    omega
  · exact hinv.postfill_ino hcf hIa

/-- A thread can be woken (`in_flight` clear while it waits) only after the
refill: before it, a waiting thread implies an unresolved requester. -/
theorem wake_filled {K ino0 fillIno fillNr : Nat} {c : PoolCfg}
    {l1 l2 : List TState} (hinv : PoolInv K ino0 fillIno fillNr c)
    (ht : c.threads = l1 ++ TState.waiting :: l2) (hf : c.in_flight = false) :
    c.filled = true := by
  cases hcf : c.filled
  · exfalso
    have hw : TState.waiting ∈ c.threads := by
      rw [ht]
      exact List.mem_append.mpr (Or.inr (List.mem_cons_self _ _))
    exact bool_tf hf ((hinv.prefill_flag hcf).mpr (hinv.prefill_waiting hcf hw))
  · rfl

/-- One step preserves the pool invariant. -/
theorem pool_inv_step {K ino0 fillIno fillNr : Nat}
    (hino0 : ino0 ≠ ALL_ONES)
    (hfill : (fillIno ≠ ALL_ONES ∧ K ≤ fillNr) ∨
      (fillIno = ALL_ONES ∧ fillNr = 0))
    {c c' : PoolCfg} (hinv : PoolInv K ino0 fillIno fillNr c)
    (hstep : alloc_ino_step fillIno fillNr c c') :
    PoolInv K ino0 fillIno fillNr c' := by
  cases hstep with
  | to_waiting l1 l2 ht h0 hne hf =>
      have hpre : c.filled = false := by
        cases hcf : c.filled
        · rfl
        · exact absurd (bool_tf (hinv.postfill_flag hcf) hf) id
      have hsc' : sendingCount { c with threads := l1 ++ TState.waiting :: l2 } =
          sendingCount c := by
        show (l1 ++ TState.waiting :: l2).countP isSending =
          c.threads.countP isSending
        rw [ht, countP_append_cons, countP_append_cons]
        simp [isSending]
      have hsend' : sendersCount { c with threads := l1 ++ TState.waiting :: l2 } =
          sendersCount c := by
        rw [sendersCount_def, sendersCount_def, hsc']
      refine ⟨?_, ?_, ?_, ?_, ?_, ?_, ?_, ?_, ?_, ?_, ?_, ?_⟩
      · show (l1 ++ TState.waiting :: l2).length = K
        rw [← hinv.len, ht, length_append_cons, length_append_cons]
      · rw [hsend']
        exact hinv.senders_le
      · intro _
        exact hinv.prefill_nr hpre
      · intro _
        exact hinv.prefill_ino hpre
      · intro _
        show c.in_flight = true ↔ _ = 1
        rw [hsend']
        exact hinv.prefill_flag hpre
      · intro _
        show ∀ t ∈ l1 ++ TState.waiting :: l2, isDone t = false
        have hnd := hinv.prefill_nodone hpre
        rw [ht] at hnd
        exact forall_mem_replace hnd rfl
      · intro _ _
        rw [hsend']
        exact (hinv.prefill_flag hpre).mp hf
      · intro hpf
        exact (bool_tf hpre hpf).elim
      · intro hpf
        exact (bool_tf hpre hpf).elim
      · intro hpf
        exact (bool_tf hpre hpf).elim
      · intro hpf
        exact (bool_tf hpre hpf).elim
      · intro hpf
        exact (bool_tf hpre hpf).elim
  | to_sending l1 l2 ht h0 hne hf =>
      have hpre : c.filled = false := by
        cases hcf : c.filled
        · rfl
        · exact absurd (postfill_check_empty hfill hinv hcf ht h0) hne
      have hs1 : sendersCount c ≠ 1 := by
        intro h1
        exact bool_tf hf ((hinv.prefill_flag hpre).mpr h1)
      have hs0 : sendersCount c = 0 := by
        have := hinv.senders_le
        omega
      have hsc' : sendingCount
          { c with in_flight := true, threads := l1 ++ TState.sending :: l2 } =
          sendingCount c + 1 := by
        show (l1 ++ TState.sending :: l2).countP isSending =
          c.threads.countP isSending + 1
        rw [ht, countP_append_cons, countP_append_cons]
        simp [isSending]
      have hsend' : sendersCount
          { c with in_flight := true, threads := l1 ++ TState.sending :: l2 } = 1 := by
        rw [sendersCount_def, hsc']
        show c.sent + (sendingCount c + 1) = 1
        rw [sendersCount_def] at hs0
        omega
      refine ⟨?_, ?_, ?_, ?_, ?_, ?_, ?_, ?_, ?_, ?_, ?_, ?_⟩
      · show (l1 ++ TState.sending :: l2).length = K
        rw [← hinv.len, ht, length_append_cons, length_append_cons]
      · rw [hsend']
      · intro _
        exact hinv.prefill_nr hpre
      · intro _
        exact hinv.prefill_ino hpre
      · intro _
        show (true : Bool) = true ↔ _ = 1
        rw [hsend']
        simp
      · intro _
        show ∀ t ∈ l1 ++ TState.sending :: l2, isDone t = false
        have hnd := hinv.prefill_nodone hpre
        rw [ht] at hnd
        exact forall_mem_replace hnd rfl
      · intro _ _
        exact hsend'
      · intro hpf
        exact (bool_tf hpre hpf).elim
      · intro hpf
        exact (bool_tf hpre hpf).elim
      · intro hpf
        exact (bool_tf hpre hpf).elim
      · intro hpf
        exact (bool_tf hpre hpf).elim
      · intro hpf
        exact (bool_tf hpre hpf).elim
  | send_request l1 l2 ht =>
      have hscge : sendingCount c = l1.countP isSending + l2.countP isSending + 1 := by
        show c.threads.countP isSending = _
        rw [ht, countP_append_cons]
        simp [isSending]
      have hpre : c.filled = false := by
        cases hcf : c.filled
        · rfl
        · exfalso
          have := hinv.postfill_nosending hcf
          omega
      have hsc' : sendingCount
          { c with
            sent := c.sent + 1
            threads := l1 ++ TState.waiting :: l2 } =
          l1.countP isSending + l2.countP isSending := by
        show (l1 ++ TState.waiting :: l2).countP isSending = _
        rw [countP_append_cons]
        simp [isSending]
      have hsend' : sendersCount
          { c with
            sent := c.sent + 1
            threads := l1 ++ TState.waiting :: l2 } = sendersCount c := by
        rw [sendersCount_def, sendersCount_def, hsc', hscge]
        show c.sent + 1 + _ = _
        omega
      refine ⟨?_, ?_, ?_, ?_, ?_, ?_, ?_, ?_, ?_, ?_, ?_, ?_⟩
      · show (l1 ++ TState.waiting :: l2).length = K
        rw [← hinv.len, ht, length_append_cons, length_append_cons]
      · rw [hsend']
        exact hinv.senders_le
      · intro _
        exact hinv.prefill_nr hpre
      · intro _
        exact hinv.prefill_ino hpre
      · intro _
        show c.in_flight = true ↔ _ = 1
        rw [hsend']
        exact hinv.prefill_flag hpre
      · intro _
        show ∀ t ∈ l1 ++ TState.waiting :: l2, isDone t = false
        have hnd := hinv.prefill_nodone hpre
        rw [ht] at hnd
        exact forall_mem_replace hnd rfl
      · intro _ _
        rw [hsend', sendersCount_def, hscge]
        have := hinv.senders_le
        rw [sendersCount_def, hscge] at this
        omega
      · intro hpf
        exact (bool_tf hpre hpf).elim
      · intro hpf
        exact (bool_tf hpre hpf).elim
      · intro hpf
        exact (bool_tf hpre hpf).elim
      · intro hpf
        exact (bool_tf hpre hpf).elim
      · intro hpf
        exact (bool_tf hpre hpf).elim
  | wake l1 l2 ht hf =>
      have hpost : c.filled = true := wake_filled hinv ht hf
      have hsc' : sendingCount { c with threads := l1 ++ TState.check :: l2 } =
          sendingCount c := by
        show (l1 ++ TState.check :: l2).countP isSending =
          c.threads.countP isSending
        rw [ht, countP_append_cons, countP_append_cons]
        simp [isSending]
      have hdc' : doneOkCount { c with threads := l1 ++ TState.check :: l2 } =
          doneOkCount c := by
        show (l1 ++ TState.check :: l2).countP isDoneOk =
          c.threads.countP isDoneOk
        rw [ht, countP_append_cons, countP_append_cons]
        simp [isDoneOk]
      refine ⟨?_, ?_, ?_, ?_, ?_, ?_, ?_, ?_, ?_, ?_, ?_, ?_⟩
      · show (l1 ++ TState.check :: l2).length = K
        rw [← hinv.len, ht, length_append_cons, length_append_cons]
      · rw [sendersCount_def, hsc']
        exact hinv.senders_le
      · intro hpf
        exact (bool_tf hpf hpost).elim
      · intro hpf
        exact (bool_tf hpf hpost).elim
      · intro hpf
        exact (bool_tf hpf hpost).elim
      · intro hpf
        exact (bool_tf hpf hpost).elim
      · intro hpf
        exact (bool_tf hpf hpost).elim
      · intro _
        exact hinv.postfill_flag hpost
      · intro _
        exact hinv.postfill_sent hpost
      · intro _
        rw [hsc']
        exact hinv.postfill_nosending hpost
      · intro _
        show c.nr + _ = fillNr
        rw [hdc']
        exact hinv.postfill_nr hpost
      · intro _ hIa
        exact hinv.postfill_ino hpost hIa
  | alloc_ok l1 l2 ht hnz =>
      have hpost : c.filled = true := by
        cases hcf : c.filled
        · exact absurd (hinv.prefill_nr hcf) hnz
        · rfl
      have hsc' : sendingCount
          { c with
            ino := c.ino + 1
            nr := c.nr - 1
            threads := l1 ++ TState.done 0 c.ino :: l2 } = sendingCount c := by
        show (l1 ++ TState.done 0 c.ino :: l2).countP isSending =
          c.threads.countP isSending
        rw [ht, countP_append_cons, countP_append_cons]
        simp [isSending]
      have hdc' : doneOkCount
          { c with
            ino := c.ino + 1
            nr := c.nr - 1
            threads := l1 ++ TState.done 0 c.ino :: l2 } = doneOkCount c + 1 := by
        show (l1 ++ TState.done 0 c.ino :: l2).countP isDoneOk =
          c.threads.countP isDoneOk + 1
        rw [ht, countP_append_cons, countP_append_cons]
        simp [isDoneOk]
      refine ⟨?_, ?_, ?_, ?_, ?_, ?_, ?_, ?_, ?_, ?_, ?_, ?_⟩
      · show (l1 ++ TState.done 0 c.ino :: l2).length = K
        rw [← hinv.len, ht, length_append_cons, length_append_cons]
      · rw [sendersCount_def, hsc']
        exact hinv.senders_le
      · intro hpf
        exact (bool_tf hpf hpost).elim
      · intro hpf
        exact (bool_tf hpf hpost).elim
      · intro hpf
        exact (bool_tf hpf hpost).elim
      · intro hpf
        exact (bool_tf hpf hpost).elim
      · intro hpf
        exact (bool_tf hpf hpost).elim
      · intro _
        exact hinv.postfill_flag hpost
      · intro _
        exact hinv.postfill_sent hpost
      · intro _
        rw [hsc']
        exact hinv.postfill_nosending hpost
      · intro _
        show c.nr - 1 + _ = fillNr
        rw [hdc']
        have := hinv.postfill_nr hpost
        omega
      · intro _ hIa
        exfalso
        rcases hfill with ⟨hIne, _⟩ | ⟨_, hNz⟩
        · exact hIne hIa
        · have := hinv.postfill_nr hpost
          omega
  | alloc_nospc l1 l2 ht h0 hall =>
      have hpost : c.filled = true := by
        cases hcf : c.filled
        · exact absurd (hinv.prefill_ino hcf ▸ hall) hino0
        · rfl
      have hsc' : sendingCount
          { c with threads := l1 ++ TState.done (-ENOSPC) 0 :: l2 } =
          sendingCount c := by
        show (l1 ++ TState.done (-ENOSPC) 0 :: l2).countP isSending =
          c.threads.countP isSending
        rw [ht, countP_append_cons, countP_append_cons]
        simp [isSending]
      have hdc' : doneOkCount
          { c with threads := l1 ++ TState.done (-ENOSPC) 0 :: l2 } =
          doneOkCount c := by
        show (l1 ++ TState.done (-ENOSPC) 0 :: l2).countP isDoneOk =
          c.threads.countP isDoneOk
        rw [ht, countP_append_cons, countP_append_cons]
        have hdn : isDoneOk (TState.done (-ENOSPC) 0) = false := by decide
        have hck : isDoneOk TState.check = false := rfl
        simp [hdn, hck]
      refine ⟨?_, ?_, ?_, ?_, ?_, ?_, ?_, ?_, ?_, ?_, ?_, ?_⟩
      · show (l1 ++ TState.done (-ENOSPC) 0 :: l2).length = K
        rw [← hinv.len, ht, length_append_cons, length_append_cons]
      · rw [sendersCount_def, hsc']
        exact hinv.senders_le
      · intro hpf
        exact (bool_tf hpf hpost).elim
      · intro hpf
        exact (bool_tf hpf hpost).elim
      · intro hpf
        exact (bool_tf hpf hpost).elim
      · intro hpf
        exact (bool_tf hpf hpost).elim
      · intro hpf
        exact (bool_tf hpf hpost).elim
      · intro _
        exact hinv.postfill_flag hpost
      · intro _
        exact hinv.postfill_sent hpost
      · intro _
        rw [hsc']
        exact hinv.postfill_nosending hpost
      · intro _
        show c.nr + _ = fillNr
        rw [hdc']
        exact hinv.postfill_nr hpost
      · intro _ hIa
        exact hinv.postfill_ino hpost hIa
  | fill_pool hsent hfu =>
      have hsent1 : c.sent = 1 ∧ sendingCount c = 0 := by
        have := hinv.senders_le
        rw [sendersCount_def] at this
        omega
      have hdc0 : doneOkCount c = 0 := by
        rw [doneOkCount, List.countP_eq_zero]
        intro t htm
        have := isDoneOk_eq_false_of_not_done (hinv.prefill_nodone hfu t htm)
        simp [this]
      refine ⟨?_, ?_, ?_, ?_, ?_, ?_, ?_, ?_, ?_, ?_, ?_, ?_⟩
      · exact hinv.len
      · rw [sendersCount_def]
        show c.sent + sendingCount c ≤ 1
        exact hinv.senders_le
      · intro hpf
        have hpf' : (true : Bool) = false := hpf
        exact absurd hpf' (by decide)
      · intro hpf
        have hpf' : (true : Bool) = false := hpf
        exact absurd hpf' (by decide)
      · intro hpf
        have hpf' : (true : Bool) = false := hpf
        exact absurd hpf' (by decide)
      · intro hpf
        have hpf' : (true : Bool) = false := hpf
        exact absurd hpf' (by decide)
      · intro hpf
        have hpf' : (true : Bool) = false := hpf
        exact absurd hpf' (by decide)
      · intro _
        rfl
      · intro _
        exact hsent1.1
      · intro _
        show sendingCount c = 0
        exact hsent1.2
      · intro _
        show fillNr + doneOkCount c = fillNr
        rw [hdc0]
        omega
      · intro _ hIa
        exact hIa

/-- Every reachable configuration satisfies the invariant. -/
theorem pool_inv_reachable {K ino0 fillIno fillNr : Nat}
    (hino0 : ino0 ≠ ALL_ONES)
    (hfill : (fillIno ≠ ALL_ONES ∧ K ≤ fillNr) ∨
      (fillIno = ALL_ONES ∧ fillNr = 0))
    {c : PoolCfg} (h : pool_reachable K ino0 fillIno fillNr c) :
    PoolInv K ino0 fillIno fillNr c := by
  induction h with
  | refl => exact pool_inv_init K ino0 fillIno fillNr
  | tail hsteps hstep ih => exact pool_inv_step hino0 hfill ih hstep

/-- In a terminal configuration, the refill request was transmitted exactly
once, the reply arrived, and every allocator has returned. -/
theorem pool_terminal_done {K ino0 fillIno fillNr : Nat} (hK : 0 < K)
    (hino0 : ino0 ≠ ALL_ONES)
    (hfill : (fillIno ≠ ALL_ONES ∧ K ≤ fillNr) ∨
      (fillIno = ALL_ONES ∧ fillNr = 0))
    {c : PoolCfg} (hinv : PoolInv K ino0 fillIno fillNr c)
    (hterm : pool_terminal fillIno fillNr c) :
    c.sent = 1 ∧ c.filled = true ∧ ∀ t ∈ c.threads, isDone t = true := by
  have hfilled : c.filled = true := by
    cases hcf : c.filled
    · exfalso
      have hne : c.threads ≠ [] := by
        intro hnil
        have hlen := hinv.len
        rw [hnil] at hlen
        simp at hlen
        omega
      obtain ⟨t0, ht0⟩ := List.exists_mem_of_ne_nil c.threads hne
      have hnd := hinv.prefill_nodone hcf t0 ht0
      obtain ⟨l1, l2, hsplit⟩ := List.append_of_mem ht0
      cases t0 with
      | done r i => simp [isDone] at hnd
      | check =>
          cases hif : c.in_flight
          · exact hterm _ (alloc_ino_step.to_sending c l1 l2 hsplit
              (hinv.prefill_nr hcf)
              (by rw [hinv.prefill_ino hcf]; exact hino0) hif)
          · exact hterm _ (alloc_ino_step.to_waiting c l1 l2 hsplit
              (hinv.prefill_nr hcf)
              (by rw [hinv.prefill_ino hcf]; exact hino0) hif)
      | sending => exact hterm _ (alloc_ino_step.send_request c l1 l2 hsplit)
      | waiting =>
          have hs1 := hinv.prefill_waiting hcf ht0
          by_cases hsent : 1 ≤ c.sent
          · exact hterm _ (alloc_ino_step.fill_pool c hsent hcf)
          · have hscpos : 0 < sendingCount c := by
              rw [sendersCount_def] at hs1
              omega
            rw [sendingCount] at hscpos
            obtain ⟨ts, hts, hps⟩ := List.countP_pos_iff.mp hscpos
            have hts' : ts = TState.sending := by
              cases ts <;> simp [isSending] at hps <;> rfl
            rw [hts'] at hts
            obtain ⟨l1', l2', hsplit'⟩ := List.append_of_mem hts
            exact hterm _ (alloc_ino_step.send_request c l1' l2' hsplit')
    · rfl
  refine ⟨hinv.postfill_sent hfilled, hfilled, ?_⟩
  intro t htm
  cases hd : isDone t
  · exfalso
    cases t with
    | done r i => simp [isDone] at hd
    | check =>
        obtain ⟨l1, l2, hsplit⟩ := List.append_of_mem htm
        by_cases hnr : c.nr = 0
        · exact hterm _ (alloc_ino_step.alloc_nospc c l1 l2 hsplit hnr
            (postfill_check_empty hfill hinv hfilled hsplit hnr))
        · exact hterm _ (alloc_ino_step.alloc_ok c l1 l2 hsplit hnr)
    | sending =>
        have h0 := hinv.postfill_nosending hfilled
        have hpos : 0 < sendingCount c := by
          rw [sendingCount]
          exact List.countP_pos_iff.mpr ⟨_, htm, rfl⟩
        omega
    | waiting =>
        obtain ⟨l1, l2, hsplit⟩ := List.append_of_mem htm
        exact hterm _ (alloc_ino_step.wake c l1 l2 hsplit
          (hinv.postfill_flag hfilled))
  · rfl

/-- Ranks of thread control states, decreasing along every thread step at
fixed `filled`: before the refill a thread only descends
check → sending → waiting; after it only sending → waiting → check → done. -/
def tRank (filled : Bool) : TState → Nat
  | .check => 2
  | .sending => if filled then 4 else 1
  | .waiting => if filled then 3 else 0
  | .done _ _ => 0

/-- Termination measure: the refill step pays for raising every thread's
rank once. -/
def poolMeasure (c : PoolCfg) : Nat :=
  (if c.filled then 0 else 4 * c.threads.length + 1) +
    (c.threads.map (tRank c.filled)).sum

theorem poolMeasure_false {c : PoolCfg} (h : c.filled = false) :
    poolMeasure c = 4 * c.threads.length + 1 +
      (c.threads.map (tRank false)).sum := by
  rw [poolMeasure, h]
  simp

theorem poolMeasure_true {c : PoolCfg} (h : c.filled = true) :
    poolMeasure c = (c.threads.map (tRank true)).sum := by
  rw [poolMeasure, h]
  simp

theorem sum_map_append_cons (f : TState → Nat) (x : TState) (l1 l2 : List TState) :
    ((l1 ++ x :: l2).map f).sum = (l1.map f).sum + f x + (l2.map f).sum := by
  simp [List.map_append, List.sum_append]
  omega

theorem sum_map_tRank_le (l : List TState) :
    (l.map (tRank true)).sum ≤ 4 * l.length := by
  induction l with
  | nil => simp
  | cons x xs ih =>
      have hx : tRank true x ≤ 4 := by
        cases x <;> simp [tRank]
      simp only [List.map_cons, List.sum_cons, List.length_cons]
      omega

/-- Every step from an invariant configuration strictly decreases the
measure: the pool system terminates. -/
theorem pool_measure_decreases {K ino0 fillIno fillNr : Nat}
    (hino0 : ino0 ≠ ALL_ONES)
    (hfill : (fillIno ≠ ALL_ONES ∧ K ≤ fillNr) ∨
      (fillIno = ALL_ONES ∧ fillNr = 0))
    {c c' : PoolCfg} (hinv : PoolInv K ino0 fillIno fillNr c)
    (hstep : alloc_ino_step fillIno fillNr c c') :
    poolMeasure c' < poolMeasure c := by
  cases hstep with
  | to_waiting l1 l2 ht h0 hne hf =>
      have hpre : c.filled = false := by
        cases hcf : c.filled
        · rfl
        · exact absurd (bool_tf (hinv.postfill_flag hcf) hf) id
      rw [poolMeasure_false (c := { c with threads := l1 ++ TState.waiting :: l2 })
        hpre, poolMeasure_false hpre]
      show 4 * (l1 ++ TState.waiting :: l2).length + 1 +
          ((l1 ++ TState.waiting :: l2).map (tRank false)).sum <
        4 * c.threads.length + 1 + ((c.threads).map (tRank false)).sum
      rw [ht, sum_map_append_cons, sum_map_append_cons, length_append_cons,
        length_append_cons]
      simp [tRank]
  | to_sending l1 l2 ht h0 hne hf =>
      have hpre : c.filled = false := by
        cases hcf : c.filled
        · rfl
        · exact absurd (postfill_check_empty hfill hinv hcf ht h0) hne
      rw [poolMeasure_false
        (c := { c with in_flight := true, threads := l1 ++ TState.sending :: l2 })
        hpre, poolMeasure_false hpre]
      show 4 * (l1 ++ TState.sending :: l2).length + 1 +
          ((l1 ++ TState.sending :: l2).map (tRank false)).sum <
        4 * c.threads.length + 1 + ((c.threads).map (tRank false)).sum
      rw [ht, sum_map_append_cons, sum_map_append_cons, length_append_cons,
        length_append_cons]
      simp [tRank]
  | send_request l1 l2 ht =>
      by_cases hcf : c.filled = true
      · rw [poolMeasure_true
          (c := { c with
            sent := c.sent + 1
            threads := l1 ++ TState.waiting :: l2 }) hcf, poolMeasure_true hcf]
        show ((l1 ++ TState.waiting :: l2).map (tRank true)).sum <
          ((c.threads).map (tRank true)).sum
        rw [ht, sum_map_append_cons, sum_map_append_cons]
        simp [tRank]
      · have hcf' : c.filled = false := Bool.not_eq_true _ |>.mp hcf
        rw [poolMeasure_false
          (c := { c with
            sent := c.sent + 1
            threads := l1 ++ TState.waiting :: l2 }) hcf', poolMeasure_false hcf']
        show 4 * (l1 ++ TState.waiting :: l2).length + 1 +
            ((l1 ++ TState.waiting :: l2).map (tRank false)).sum <
          4 * c.threads.length + 1 + ((c.threads).map (tRank false)).sum
        rw [ht, sum_map_append_cons, sum_map_append_cons, length_append_cons,
          length_append_cons]
        simp [tRank]
  | wake l1 l2 ht hf =>
      have hpost : c.filled = true := wake_filled hinv ht hf
      rw [poolMeasure_true (c := { c with threads := l1 ++ TState.check :: l2 })
        hpost, poolMeasure_true hpost]
      show ((l1 ++ TState.check :: l2).map (tRank true)).sum <
        ((c.threads).map (tRank true)).sum
      rw [ht, sum_map_append_cons, sum_map_append_cons]
      simp [tRank]
  | alloc_ok l1 l2 ht hnz =>
      have hpost : c.filled = true := by
        cases hcf : c.filled
        · exact absurd (hinv.prefill_nr hcf) hnz
        · rfl
      rw [poolMeasure_true
        (c := { c with
          ino := c.ino + 1
          nr := c.nr - 1
          threads := l1 ++ TState.done 0 c.ino :: l2 }) hpost,
        poolMeasure_true hpost]
      show ((l1 ++ TState.done 0 c.ino :: l2).map (tRank true)).sum <
        ((c.threads).map (tRank true)).sum
      rw [ht, sum_map_append_cons, sum_map_append_cons]
      simp [tRank]
  | alloc_nospc l1 l2 ht h0 hall =>
      have hpost : c.filled = true := by
        cases hcf : c.filled
        · exact absurd (hinv.prefill_ino hcf ▸ hall) hino0
        · rfl
      rw [poolMeasure_true
        (c := { c with threads := l1 ++ TState.done (-ENOSPC) 0 :: l2 }) hpost,
        poolMeasure_true hpost]
      show ((l1 ++ TState.done (-ENOSPC) 0 :: l2).map (tRank true)).sum <
        ((c.threads).map (tRank true)).sum
      rw [ht, sum_map_append_cons, sum_map_append_cons]
      simp [tRank]
  | fill_pool hsent hfu =>
      have htrue : ({ c with
          ino := fillIno
          nr := fillNr
          in_flight := false
          filled := true } : PoolCfg).filled = true := rfl
      rw [poolMeasure_true htrue, poolMeasure_false hfu]
      show ((c.threads).map (tRank true)).sum <
        4 * c.threads.length + 1 + ((c.threads).map (tRank false)).sum
      have := sum_map_tRank_le c.threads
      omega

/-- There is no infinite execution of the pool system. -/
theorem pool_no_infinite_run {K ino0 fillIno fillNr : Nat}
    (hino0 : ino0 ≠ ALL_ONES)
    (hfill : (fillIno ≠ ALL_ONES ∧ K ≤ fillNr) ∨
      (fillIno = ALL_ONES ∧ fillNr = 0)) :
    ¬ ∃ f : Nat → PoolCfg, f 0 = pool_init K ino0 ∧
      ∀ n, alloc_ino_step fillIno fillNr (f n) (f (n + 1)) := by
  rintro ⟨f, h0, hs⟩
  have hreach : ∀ n, pool_reachable K ino0 fillIno fillNr (f n) := by
    intro n
    induction n with
    | zero =>
        rw [h0]
        exact Relation.ReflTransGen.refl
    | succ n ih => exact Relation.ReflTransGen.tail ih (hs n)
  have hdec : ∀ n, poolMeasure (f (n + 1)) < poolMeasure (f n) := fun n =>
    pool_measure_decreases hino0 hfill
      (pool_inv_reachable hino0 hfill (hreach n)) (hs n)
  have hle : ∀ n, poolMeasure (f n) + n ≤ poolMeasure (f 0) := by
    intro n
    induction n with
    | zero => omega
    | succ n ih =>
        have := hdec n
        omega
  have := hle (poolMeasure (f 0) + 1)
  omega

/-- C5: for `K` allocators hitting an empty, not-exhausted pool, with the
refill delivering either a fresh range of at least `K` inodes or the
exhaustion sentinel: in every reachable configuration at most one thread
ever took the requester role (no duplicate refill request is ever
transmitted); every execution is finite; and in any configuration where
nothing can step any more, exactly one request was transmitted, the refill
resolved, and all `K` allocator calls have completed. -/
theorem alloc_ino_single_requester (K ino0 fillIno fillNr : Nat)
    (hK : 0 < K) (hino0 : ino0 ≠ ALL_ONES)
    (hfill : (fillIno ≠ ALL_ONES ∧ K ≤ fillNr) ∨
      (fillIno = ALL_ONES ∧ fillNr = 0)) :
    (∀ c, pool_reachable K ino0 fillIno fillNr c → sendersCount c ≤ 1) ∧
    (∀ c, pool_reachable K ino0 fillIno fillNr c →
      pool_terminal fillIno fillNr c →
      c.sent = 1 ∧ c.filled = true ∧ ∀ t ∈ c.threads, isDone t = true) ∧
    ¬ ∃ f : Nat → PoolCfg, f 0 = pool_init K ino0 ∧
      ∀ n, alloc_ino_step fillIno fillNr (f n) (f (n + 1)) := by
  refine ⟨?_, ?_, ?_⟩
  · intro c hc
    exact (pool_inv_reachable hino0 hfill hc).senders_le
  · intro c hc hterm
    exact pool_terminal_done hK hino0 hfill
      (pool_inv_reachable hino0 hfill hc) hterm
  · exact pool_no_infinite_run hino0 hfill

/-- Witness for C5: one allocator, a fresh pool of one inode. -/
theorem alloc_ino_single_requester_witness :
    0 < 1 ∧ (5 : Nat) ≠ ALL_ONES ∧
    (((100 : Nat) ≠ ALL_ONES ∧ 1 ≤ 1) ∨ ((100 : Nat) = ALL_ONES ∧ 1 = 0)) ∧
    ((∀ c, pool_reachable 1 5 100 1 c → sendersCount c ≤ 1) ∧
      (∀ c, pool_reachable 1 5 100 1 c → pool_terminal 100 1 c →
        c.sent = 1 ∧ c.filled = true ∧ ∀ t ∈ c.threads, isDone t = true) ∧
      ¬ ∃ f : Nat → PoolCfg, f 0 = pool_init 1 5 ∧
        ∀ n, alloc_ino_step 100 1 (f n) (f (n + 1))) := by
  have h5 : (5 : Nat) ≠ ALL_ONES := by decide
  have h100 : (100 : Nat) ≠ ALL_ONES := by decide
  exact ⟨by decide, h5, Or.inl ⟨h100, Nat.le_refl 1⟩,
    alloc_ino_single_requester 1 5 100 1 (by decide) h5
      (Or.inl ⟨h100, Nat.le_refl 1⟩)⟩

end Scoutfs
